import Mathlib

/-!
# DeFolio portfolio accounting engine — verification development

Shallow embedding of the PnL / tax-lot engine of the DeFolio repository
(`src/lib/utils/pnl.ts` and the tax-summary part of
`src/pages/api/wallet/[address].ts`).  JavaScript numbers are modelled as
rationals (`ℚ`), arrays as lists, and the JS `Map`/`Record` groupings as
key-dedup plus filtering, which reproduces the insertion-order grouping of
the source.  All functions are total; the source's `while` loops are
structural recursions on the lot list (each iteration either shifts the
front lot or drives `remaining` to zero and exits).
-/

namespace DeFolio

/-- Type `ChainId` from `src/types/index.ts`: the four supported chains. -/
inductive ChainId : Type
  | ethereum
  | polygon
  | arbitrum
  | base
deriving DecidableEq, Repr

/-- The list of all chain identifiers, in the order the wallet handler
iterates its `txsByChain` record. -/
def ChainId.all : List ChainId := [.ethereum, .polygon, .arbitrum, .base]

/-- Type `Transaction.type` from `src/types/index.ts`. -/
inductive TxType : Type
  | send
  | receive
  | swap
  | contract_interaction
deriving DecidableEq, Repr

/-- Type `Token` from `src/types/index.ts`.  Only the fields the accounting
engine reads (address, chainId) are modelled; symbol/name/decimals/logo
are display-only. -/
structure Token : Type where
  address : String
  chainId : ChainId
deriving DecidableEq, Repr

/-- Type `Balance` from `src/types/index.ts`.  The engine reads only
`balanceFormatted`. -/
structure Balance : Type where
  balanceFormatted : ℚ
deriving DecidableEq, Repr

/-- Type `Transaction` from `src/types/index.ts`, restricted to the fields the
engine reads.  `usdValueAtTime` is optional in the source
(`usdValueAtTime?: number`), so it is an `Option ℚ` here; every read site
in the source applies `|| 0`, modelled by `Option.getD 0`. -/
structure Transaction : Type where
  hash : String
  chainId : ChainId
  valueFormatted : ℚ
  token : Token
  timestamp : ℚ
  type : TxType
  usdValueAtTime : Option ℚ
deriving DecidableEq, Repr

/-- An open acquisition lot, as kept in the lot arrays of both
`calculateFIFO` and `calculateTaxLots`:
`{ amount, priceUsd, timestamp }`. -/
structure Lot : Type where
  amount : ℚ
  priceUsd : ℚ
  timestamp : ℚ
deriving DecidableEq, Repr

/-- The `type` field of the internal `TokenTransaction` interface of
`src/lib/utils/pnl.ts` (`'buy' | 'sell' | 'receive' | 'send'`). -/
inductive TTType : Type
  | buy
  | sell
  | receive
  | send
deriving DecidableEq, Repr

/-- The internal `TokenTransaction` of `src/lib/utils/pnl.ts` (the
`txHash` field is never read by the computation). -/
structure TokenTransaction : Type where
  timestamp : ℚ
  amount : ℚ
  priceUsd : ℚ
  type : TTType
deriving DecidableEq, Repr

/-- JS `String.prototype.toLowerCase()` as used for the case-insensitive
address comparison in `calculateTokenPnL`, modelled per character. -/
def toLowerStr (s : String) : String := ⟨s.data.map Char.toLower⟩

/-- Insert one element into an already sorted list, keeping it before the
first strictly later element and after every element with an earlier or
equal timestamp.  Together with `sortByTs` this is the standard stable
insertion sort, matching the stable `Array.prototype.sort` with comparator
`(a, b) => a.timestamp - b.timestamp` used in the source. -/
def insertByTs (ts : α → ℚ) (x : α) : List α → List α
  | [] => [x]
  | y :: ys => if ts x ≤ ts y then x :: y :: ys else y :: insertByTs ts x ys

/-- Stable sort by ascending timestamp (see `insertByTs`). -/
def sortByTs (ts : α → ℚ) : List α → List α
  | [] => []
  | x :: xs => insertByTs ts x (sortByTs ts xs)

/-- Sum of the `amount` fields of a lot list (the source's
`lots.reduce((sum, lot) => sum + lot.amount, 0)`). -/
def lotsAmount (lots : List Lot) : ℚ := (lots.map Lot.amount).sum

/-- Sum of `amount * priceUsd` over a lot list (the source's
`lots.reduce((sum, lot) => sum + lot.amount * lot.priceUsd, 0)`). -/
def lotsCost (lots : List Lot) : ℚ := (lots.map (fun l => l.amount * l.priceUsd)).sum

/-- The disposal loop of `calculateFIFO` (`src/lib/utils/pnl.ts` lines
128–152): `while (remainingToSell > 0 && lots.length > 0)` consume the
front lot, either whole (shift and continue) or partially (decrement the
front lot's amount and stop).  Returns the realized-PnL contribution and
the remaining lot list. -/
def disposeFIFO (priceUsd : ℚ) : ℚ → List Lot → ℚ × List Lot
  | _, [] => (0, [])
  | remaining, oldestLot :: rest =>
    if remaining > 0 then
      if oldestLot.amount ≤ remaining then
        let saleValue := oldestLot.amount * priceUsd
        let costBasis := oldestLot.amount * oldestLot.priceUsd
        let r := disposeFIFO priceUsd (remaining - oldestLot.amount) rest
        (saleValue - costBasis + r.1, r.2)
      else
        let saleValue := remaining * priceUsd
        let costBasis := remaining * oldestLot.priceUsd
        (saleValue - costBasis, { oldestLot with amount := oldestLot.amount - remaining } :: rest)
    else (0, oldestLot :: rest)

/-- The state threaded through `calculateFIFO`'s event loop. -/
structure FIFOState : Type where
  lots : List Lot
  realizedPnL : ℚ
  totalInvested : ℚ
deriving DecidableEq, Repr

/-- One iteration of `calculateFIFO`'s `for (const tx of transactions)`
loop: `buy`/`receive` pushes a lot and adds to `totalInvested`;
`sell`/`send` runs the FIFO disposal loop. -/
def fifoStep (s : FIFOState) (tx : TokenTransaction) : FIFOState :=
  match tx.type with
  | .buy | .receive =>
    { s with
      lots := s.lots ++ [⟨tx.amount, tx.priceUsd, tx.timestamp⟩]
      totalInvested := s.totalInvested + tx.amount * tx.priceUsd }
  | .sell | .send =>
    let r := disposeFIFO tx.priceUsd tx.amount s.lots
    { s with realizedPnL := s.realizedPnL + r.1, lots := r.2 }

/-- Function `calculateFIFO` from `src/lib/utils/pnl.ts`: replay the (already
sorted) simplified transactions against an initially empty ledger. -/
def calculateFIFO (transactions : List TokenTransaction) : FIFOState :=
  transactions.foldl fifoStep ⟨[], 0, 0⟩

/-- The per-transaction conversion done inside `calculateTokenPnL`:
`type: tx.type === 'receive' || tx.type === 'swap' ? 'buy' : 'sell'`,
`priceUsd: tx.usdValueAtTime || 0`. -/
def simplify (tx : Transaction) : TokenTransaction :=
  { timestamp := tx.timestamp
    amount := tx.valueFormatted
    priceUsd := tx.usdValueAtTime.getD 0
    type := if tx.type = .receive ∨ tx.type = .swap then .buy else .sell }

/-- Type `PnLCalculation` from `src/types/index.ts` (numeric fields plus the
token/chain tags). -/
structure PnLCalculation : Type where
  token : Token
  chainId : ChainId
  realizedPnL : ℚ
  unrealizedPnL : ℚ
  totalPnL : ℚ
  costBasis : ℚ
  currentValue : ℚ
  totalInvested : ℚ
  percentageChange : ℚ
deriving DecidableEq, Repr

/-- Function `calculateTokenPnL` from `src/lib/utils/pnl.ts`: filter the
transactions to this token (case-insensitive address, exact chain), drop
zero-amount transfers, simplify, sort by timestamp, run FIFO, then derive
cost basis, effective balance, current value, unrealized PnL, total PnL
and percentage change exactly as the source does. -/
def calculateTokenPnL (token : Token) (transactions : List Transaction)
    (currentBalance : Balance) (currentPrice : ℚ) : PnLCalculation :=
  let tokenTxs := transactions.filter (fun tx =>
    toLowerStr tx.token.address = toLowerStr token.address ∧ tx.chainId = token.chainId)
  let simplifiedTxs := (tokenTxs.filter (fun tx => tx.valueFormatted > 0)).map simplify
  let sortedTxs := sortByTs TokenTransaction.timestamp simplifiedTxs
  let r := calculateFIFO sortedTxs
  let costBasis := if r.lots ≠ [] then lotsCost r.lots / lotsAmount r.lots else 0
  let remainingAmount := lotsAmount r.lots
  let effectiveBalanceAmount :=
    if currentBalance.balanceFormatted > 0 then currentBalance.balanceFormatted
    else remainingAmount
  let currentValue := effectiveBalanceAmount * currentPrice
  let unrealizedPnL := currentValue - costBasis * effectiveBalanceAmount
  let totalPnL := r.realizedPnL + unrealizedPnL
  let percentageChange := if r.totalInvested > 0 then totalPnL / r.totalInvested * 100 else 0
  { token := token
    chainId := token.chainId
    realizedPnL := r.realizedPnL
    unrealizedPnL := unrealizedPnL
    totalPnL := totalPnL
    costBasis := costBasis
    currentValue := currentValue
    totalInvested := r.totalInvested
    percentageChange := percentageChange }

/-- The sum of remaining lot amounts after `calculateTokenPnL`'s FIFO
replay for one token (the source's internal `remainingAmount`), exposed
so that theorems can speak about the effective-holdings choice. -/
def tokenRemainingAmount (token : Token) (transactions : List Transaction) : ℚ :=
  let tokenTxs := transactions.filter (fun tx =>
    toLowerStr tx.token.address = toLowerStr token.address ∧ tx.chainId = token.chainId)
  let simplifiedTxs := (tokenTxs.filter (fun tx => tx.valueFormatted > 0)).map simplify
  lotsAmount (calculateFIFO (sortByTs TokenTransaction.timestamp simplifiedTxs)).lots

/-- The return record of `calculatePortfolioPnL`. -/
structure PortfolioMetrics : Type where
  totalRealizedPnL : ℚ
  totalUnrealizedPnL : ℚ
  totalPnL : ℚ
  totalValue : ℚ
  totalInvested : ℚ
  percentageChange : ℚ
deriving DecidableEq, Repr

/-- Function `calculatePortfolioPnL` from `src/lib/utils/pnl.ts`: reduce the
per-token results into portfolio totals. -/
def calculatePortfolioPnL (pnlByToken : List PnLCalculation) : PortfolioMetrics :=
  let totalRealizedPnL := (pnlByToken.map PnLCalculation.realizedPnL).sum
  let totalUnrealizedPnL := (pnlByToken.map PnLCalculation.unrealizedPnL).sum
  let totalPnL := totalRealizedPnL + totalUnrealizedPnL
  let totalValue := (pnlByToken.map PnLCalculation.currentValue).sum
  let totalInvested := (pnlByToken.map PnLCalculation.totalInvested).sum
  let percentageChange := if totalInvested > 0 then totalPnL / totalInvested * 100 else 0
  { totalRealizedPnL := totalRealizedPnL
    totalUnrealizedPnL := totalUnrealizedPnL
    totalPnL := totalPnL
    totalValue := totalValue
    totalInvested := totalInvested
    percentageChange := percentageChange }

/-- Add `v` to the entry for chain `c` of an association-list model of the
JS record built by `calculatePnLByChain` (`pnlByChain[k] += v`, creating
the key first if absent; JS object keys are unique, so the first matching
entry is the only one). -/
def recAdd : List (ChainId × ℚ) → ChainId → ℚ → List (ChainId × ℚ)
  | [], c, v => [(c, v)]
  | p :: m, c, v => if p.1 = c then (p.1, p.2 + v) :: m else p :: recAdd m c v

/-- Function `calculatePnLByChain` from `src/lib/utils/pnl.ts`: fold the per-token
results into a chain-keyed record of summed `totalPnL`. -/
def calculatePnLByChain (pnlByToken : List PnLCalculation) : List (ChainId × ℚ) :=
  pnlByToken.foldl (fun m pnl => recAdd m pnl.chainId pnl.totalPnL) []

/-- Constant `ONE_YEAR = 365 * 24 * 60 * 60 * 1000` milliseconds, as in both
`calculateTaxLots` and the wallet handler. -/
def ONE_YEAR : ℚ := 365 * 24 * 60 * 60 * 1000

/-- The return record of `calculateTaxLots`. -/
structure TaxResult : Type where
  shortTermGains : ℚ
  longTermGains : ℚ
  totalCapitalGains : ℚ
deriving DecidableEq, Repr

/-- The disposal loop of `calculateTaxLots` (`src/lib/utils/pnl.ts`
lines 250–274): consume front lots FIFO; each consumed chunk's gain
`sellAmount * (price - lot.priceUsd)` is classified long-term when
`tx.timestamp - lot.timestamp >= ONE_YEAR`, else short-term.  Returns
`((shortGain, longGain), remaining lots)`. -/
def disposeTax (priceUsd txTimestamp : ℚ) : ℚ → List Lot → (ℚ × ℚ) × List Lot
  | _, [] => ((0, 0), [])
  | remaining, lot :: rest =>
    if remaining > 0 then
      let isLongTerm := txTimestamp - lot.timestamp ≥ ONE_YEAR
      let sellAmount := min lot.amount remaining
      let gain := sellAmount * (priceUsd - lot.priceUsd)
      if lot.amount ≤ remaining then
        let r := disposeTax priceUsd txTimestamp (remaining - lot.amount) rest
        (if isLongTerm then (r.1.1, gain + r.1.2) else (gain + r.1.1, r.1.2), r.2)
      else
        (if isLongTerm then (0, gain) else (gain, 0),
         { lot with amount := lot.amount - remaining } :: rest)
    else ((0, 0), lot :: rest)

/-- The per-token-key classifier state (`lots`, `shortTermGains`,
`longTermGains`). -/
structure TaxState : Type where
  lots : List Lot
  st : ℚ
  lt : ℚ
deriving DecidableEq, Repr

/-- One iteration of `calculateTaxLots`'s inner `txs.forEach`: `receive`
pushes a lot, `send` runs the classifying disposal loop, every other type
is ignored. -/
def taxStep (s : TaxState) (tx : Transaction) : TaxState :=
  match tx.type with
  | .receive =>
    { s with lots := s.lots ++ [⟨tx.valueFormatted, tx.usdValueAtTime.getD 0, tx.timestamp⟩] }
  | .send =>
    let r := disposeTax (tx.usdValueAtTime.getD 0) tx.timestamp tx.valueFormatted s.lots
    { lots := r.2, st := s.st + r.1.1, lt := s.lt + r.1.2 }
  | _ => s

/-- Replay one token-key's sorted transaction list through `taxStep`
starting from an empty ledger. -/
def taxReplay (txs : List Transaction) : TaxState :=
  txs.foldl taxStep ⟨[], 0, 0⟩

/-- The grouping key of `calculateTaxLots`:
`` `${tx.chainId}-${tx.token.address}` `` (chain names contain no `-`, so
the string key is equivalent to the pair). -/
def txKey (tx : Transaction) : ChainId × String := (tx.chainId, tx.token.address)

/-- The distinct token keys of a transaction list, in first-occurrence
order — the key set (and iteration order) of the source's
`Map<string, Transaction[]>`. -/
def tokenKeys (txs : List Transaction) : List (ChainId × String) :=
  (txs.map txKey).dedup

/-- Function `calculateTaxLots` from `src/lib/utils/pnl.ts`: group by token key,
sort each group by timestamp, replay it with `taxStep`, and accumulate
short- and long-term gains over all groups.  The `currentTimestamp` parameter
(defaulted to `Date.now()` in the source) is declared but never read. -/
def calculateTaxLots (transactions : List Transaction) (currentTimestamp : ℚ) : TaxResult :=
  let groups := (tokenKeys transactions).map
    (fun k => taxReplay (sortByTs Transaction.timestamp
      (transactions.filter (fun tx => txKey tx = k))))
  let shortTermGains := (groups.map TaxState.st).sum
  let longTermGains := (groups.map TaxState.lt).sum
  { shortTermGains := shortTermGains
    longTermGains := longTermGains
    totalCapitalGains := shortTermGains + longTermGains }

/-- The disposal loop of the per-chain tax pass inlined in
`src/pages/api/wallet/[address].ts` (lines 231–242): same FIFO
consumption, but the front lot is evicted by `if (lot.amount === 0)
lots.shift()` after `lot.amount -= sell`.  In the branch where the
decremented amount is non-zero, `sell = remaining` held, so the loop's
next guard `remaining > 0` fails and it exits with the lot retained. -/
def chainDispose (priceUsd txTimestamp : ℚ) : ℚ → List Lot → (ℚ × ℚ) → (ℚ × ℚ) × List Lot
  | _, [], acc => (acc, [])
  | remaining, lot :: rest, acc =>
    if remaining > 0 then
      let sell := min lot.amount remaining
      let gain := sell * (priceUsd - lot.priceUsd)
      let holding := txTimestamp - lot.timestamp
      let acc2 := if holding ≥ ONE_YEAR then (acc.1, acc.2 + gain) else (acc.1 + gain, acc.2)
      if lot.amount - sell = 0 then
        chainDispose priceUsd txTimestamp (remaining - sell) rest acc2
      else
        (acc2, { lot with amount := lot.amount - sell } :: rest)
    else (acc, lot :: rest)

/-- One iteration of the wallet handler's per-chain `txs.forEach`. -/
def chainTaxStep (s : TaxState) (tx : Transaction) : TaxState :=
  match tx.type with
  | .receive =>
    { s with lots := s.lots ++ [⟨tx.valueFormatted, tx.usdValueAtTime.getD 0, tx.timestamp⟩] }
  | .send =>
    let r := chainDispose (tx.usdValueAtTime.getD 0) tx.timestamp tx.valueFormatted s.lots (0, 0)
    { lots := r.2, st := s.st + r.1.1, lt := s.lt + r.1.2 }
  | _ => s

/-- The wallet handler's per-chain tax computation for one chain: collect
the chain's transactions (`txsByChain`), sort by timestamp, and replay
them through one shared lot queue (note: not grouped by token within the
chain). -/
def byChainGains (transactions : List Transaction) (c : ChainId) : TaxResult :=
  let txs := sortByTs Transaction.timestamp
    (transactions.filter (fun tx => tx.chainId = c))
  let s := txs.foldl chainTaxStep ⟨[], 0, 0⟩
  { shortTermGains := s.st
    longTermGains := s.lt
    totalCapitalGains := s.st + s.lt }

/-- The wallet handler's `realizedEvents` field:
`transactions.filter((t) => t.type === 'send').length` — a single global
count over the unfiltered transaction list. -/
def realizedEvents (transactions : List Transaction) : ℕ :=
  (transactions.filter (fun t => t.type = TxType.send)).length

/-- The quantity claimed for the realized-event count (stated from the
spec, to be compared with `realizedEvents`): the number of disposal
events of one chain that survive zero-amount filtering. -/
def specRealizedEventCount (transactions : List Transaction) (c : ChainId) : ℕ :=
  ((transactions.filter (fun t => t.valueFormatted > 0)).filter
    (fun t => t.chainId = c ∧ t.type = TxType.send)).length

/-- The effective-holdings rule as the spec states it (to be compared
with the code's choice in `calculateTokenPnL`): the larger of the
caller-supplied balance and the remaining lot sum. -/
def specEffectiveHoldings (token : Token) (transactions : List Transaction)
    (currentBalance : Balance) : ℚ :=
  max currentBalance.balanceFormatted (tokenRemainingAmount token transactions)

/-- The aggregate realized PnL of the PnL pass: the sum, over the
distinct token keys appearing in the transaction list, of the
`realizedPnL` that `calculateTokenPnL` computes for that key's token.
(The wallet handler calls `calculateTokenPnL` once per token and the
portfolio aggregator sums `realizedPnL`; the balance and current-price
arguments do not influence `realizedPnL`, so they are fixed here.) -/
def aggregateRealizedPnL (transactions : List Transaction) : ℚ :=
  ((tokenKeys transactions).map (fun k =>
    (calculateTokenPnL ⟨k.2, k.1⟩ transactions ⟨0⟩ 0).realizedPnL)).sum

/-! ## General list lemmas -/

theorem sum_map_add (l : List α) (f g : α → ℚ) :
    (l.map (fun x => f x + g x)).sum = (l.map f).sum + (l.map g).sum := by
  induction l with
  | nil => simp
  | cons x xs ih => simp [ih]; ring

theorem recAdd_snd_sum (m : List (ChainId × ℚ)) (c : ChainId) (v : ℚ) :
    ((recAdd m c v).map Prod.snd).sum = (m.map Prod.snd).sum + v := by
  induction m with
  | nil => simp [recAdd]
  | cons p m ih =>
    by_cases h : p.1 = c <;> simp [recAdd, h, ih] <;> ring

theorem pnlByChain_fold_snd_sum (l : List PnLCalculation) (m : List (ChainId × ℚ)) :
    ((l.foldl (fun m pnl => recAdd m pnl.chainId pnl.totalPnL) m).map Prod.snd).sum =
      (m.map Prod.snd).sum + (l.map PnLCalculation.totalPnL).sum := by
  induction l generalizing m with
  | nil => simp
  | cons p l ih => simp [ih, recAdd_snd_sum]; ring

/-! ## Sorting lemmas -/

theorem mem_insertByTs (ts : α → ℚ) (x z : α) (m : List α) :
    z ∈ insertByTs ts x m ↔ z = x ∨ z ∈ m := by
  induction m with
  | nil => simp [insertByTs]
  | cons y ys ih =>
    by_cases h : ts x ≤ ts y <;> simp [insertByTs, h, ih] <;> tauto

theorem insertByTs_of_forall_le (ts : α → ℚ) (x : α) (m : List α)
    (h : ∀ z ∈ m, ts x ≤ ts z) : insertByTs ts x m = x :: m := by
  cases m with
  | nil => rfl
  | cons y ys => simp [insertByTs, h y (by simp)]

theorem insertByTs_pairwise (ts : α → ℚ) (x : α) (m : List α)
    (h : m.Pairwise (fun a b => ts a ≤ ts b)) :
    (insertByTs ts x m).Pairwise (fun a b => ts a ≤ ts b) := by
  induction m with
  | nil => simp [insertByTs]
  | cons y ys ih =>
    rcases List.pairwise_cons.mp h with ⟨hy, hys⟩
    by_cases hxy : ts x ≤ ts y
    · simp only [insertByTs, if_pos hxy]
      refine List.pairwise_cons.mpr ⟨?_, h⟩
      intro z hz
      rcases List.mem_cons.mp hz with hz | hz
      · exact hz ▸ hxy
      · exact le_trans hxy (hy z hz)
    · simp only [insertByTs, if_neg hxy]
      refine List.pairwise_cons.mpr ⟨?_, ih hys⟩
      intro z hz
      rcases (mem_insertByTs ts x z ys).mp hz with hz | hz
      · exact hz ▸ le_of_lt (lt_of_not_le hxy)
      · exact hy z hz

theorem sortByTs_pairwise (ts : α → ℚ) (l : List α) :
    (sortByTs ts l).Pairwise (fun a b => ts a ≤ ts b) := by
  induction l with
  | nil => simp [sortByTs]
  | cons x xs ih => exact insertByTs_pairwise ts x _ ih

theorem filter_insertByTs_neg (ts : α → ℚ) (p : α → Bool) (x : α) (m : List α)
    (hx : ¬ p x) : (insertByTs ts x m).filter p = m.filter p := by
  induction m with
  | nil => simp [insertByTs, hx]
  | cons y ys ih =>
    by_cases h : ts x ≤ ts y
    · simp [insertByTs, h, List.filter_cons, hx]
    · by_cases hy : p y <;> simp [insertByTs, h, List.filter_cons, hy, ih]

theorem filter_insertByTs_pos (ts : α → ℚ) (p : α → Bool) (x : α) (m : List α)
    (hm : m.Pairwise (fun a b => ts a ≤ ts b)) (hx : p x) :
    (insertByTs ts x m).filter p = insertByTs ts x (m.filter p) := by
  induction m with
  | nil => simp [insertByTs, hx]
  | cons y ys ih =>
    rcases List.pairwise_cons.mp hm with ⟨hy, hys⟩
    by_cases h : ts x ≤ ts y
    · by_cases py : p y
      · simp [insertByTs, h, List.filter_cons, hx, py]
      · have hstep : insertByTs ts x (List.filter p ys) = x :: List.filter p ys :=
          insertByTs_of_forall_le ts x _
            (fun z hz => le_trans h (hy z (List.mem_of_mem_filter hz)))
        simp [insertByTs, h, List.filter_cons, hx, py, hstep]
    · by_cases py : p y <;>
        simp [insertByTs, h, List.filter_cons, py, ih hys]

theorem sortByTs_filter (ts : α → ℚ) (p : α → Bool) (l : List α) :
    sortByTs ts (l.filter p) = (sortByTs ts l).filter p := by
  induction l with
  | nil => rfl
  | cons x xs ih =>
    by_cases hx : p x
    · simp only [List.filter_cons, if_pos hx, sortByTs, ih]
      exact (filter_insertByTs_pos ts p x _ (sortByTs_pairwise ts xs) hx).symm
    · simp only [List.filter_cons, if_neg hx, sortByTs, ih]
      exact (filter_insertByTs_neg ts p x _ hx).symm

theorem insertByTs_map (ts1 : α → ℚ) (ts2 : β → ℚ) (f : α → β)
    (hf : ∀ x, ts2 (f x) = ts1 x) (x : α) (m : List α) :
    (insertByTs ts1 x m).map f = insertByTs ts2 (f x) (m.map f) := by
  induction m with
  | nil => rfl
  | cons y ys ih =>
    by_cases h : ts1 x ≤ ts1 y <;> simp [insertByTs, h, hf, ih]

theorem sortByTs_map (ts1 : α → ℚ) (ts2 : β → ℚ) (f : α → β)
    (hf : ∀ x, ts2 (f x) = ts1 x) (l : List α) :
    (sortByTs ts1 l).map f = sortByTs ts2 (l.map f) := by
  induction l with
  | nil => rfl
  | cons x xs ih => simp [sortByTs, insertByTs_map ts1 ts2 f hf, ih]

/-! ## Disposal-loop lemmas -/

theorem disposeTax_nonpos (p t r : ℚ) (lots : List Lot) (hr : ¬ r > 0) :
    disposeTax p t r lots = ((0, 0), lots) := by
  cases lots with
  | nil => rfl
  | cons l rest => simp [disposeTax, hr]

theorem chainDispose_eq_disposeTax (p t : ℚ) (lots : List Lot) :
    ∀ r acc, chainDispose p t r lots acc =
      ((acc.1 + (disposeTax p t r lots).1.1, acc.2 + (disposeTax p t r lots).1.2),
        (disposeTax p t r lots).2) := by
  induction lots with
  | nil => intro r acc; simp [chainDispose, disposeTax]
  | cons lot rest ih =>
    intro r acc
    by_cases hr : r > 0
    · by_cases hle : lot.amount ≤ r
      · have hmin : min lot.amount r = lot.amount := min_eq_left hle
        have hz : lot.amount - min lot.amount r = 0 := by rw [hmin]; ring
        by_cases hlt : t - lot.timestamp ≥ ONE_YEAR <;>
          simp [chainDispose, disposeTax, hr, hle, hmin, hz, hlt, ih] <;> ring_nf
      · have hmin : min lot.amount r = r := min_eq_right (le_of_lt (lt_of_not_le hle))
        have hnz : lot.amount - r ≠ 0 := sub_ne_zero.mpr (fun he => hle (le_of_eq he))
        by_cases hlt : t - lot.timestamp ≥ ONE_YEAR <;>
          simp [chainDispose, disposeTax, hr, hle, hmin, hnz, hlt]
    · simp [chainDispose, disposeTax_nonpos p t r _ hr, hr]

theorem disposeTax_sum_fifo (p t : ℚ) (lots : List Lot) :
    ∀ r, (disposeTax p t r lots).1.1 + (disposeTax p t r lots).1.2 = (disposeFIFO p r lots).1 ∧
      (disposeTax p t r lots).2 = (disposeFIFO p r lots).2 := by
  induction lots with
  | nil => intro r; simp [disposeTax, disposeFIFO]
  | cons lot rest ih =>
    intro r
    by_cases hr : r > 0
    · by_cases hle : lot.amount ≤ r
      · have hmin : min lot.amount r = lot.amount := min_eq_left hle
        have hexp : lot.amount * (p - lot.priceUsd) =
            lot.amount * p - lot.amount * lot.priceUsd := by ring
        refine ⟨?_, ?_⟩
        · have hsum := (ih (r - lot.amount)).1
          by_cases hlt : t - lot.timestamp ≥ ONE_YEAR <;>
            simp [disposeTax, disposeFIFO, hr, hle, hmin, hlt] <;> linarith [hsum, hexp]
        · have := (ih (r - lot.amount)).2
          by_cases hlt : t - lot.timestamp ≥ ONE_YEAR <;>
            simp [disposeTax, disposeFIFO, hr, hle, hmin, hlt, this]
      · have hmin : min lot.amount r = r := min_eq_right (le_of_lt (lt_of_not_le hle))
        by_cases hlt : t - lot.timestamp ≥ ONE_YEAR <;>
          simp [disposeTax, disposeFIFO, hr, hle, hmin, hlt] <;> ring
    · simp [disposeTax_nonpos p t r _ hr, disposeFIFO, hr]

/-! ## Zero-amount erasure -/

theorem disposeTax_filter_nz (p t : ℚ) (lots : List Lot) :
    ∀ r, (disposeTax p t r lots).1 =
        (disposeTax p t r (lots.filter (fun l => l.amount ≠ 0))).1 ∧
      (disposeTax p t r lots).2.filter (fun l => l.amount ≠ 0) =
        (disposeTax p t r (lots.filter (fun l => l.amount ≠ 0))).2 := by
  induction lots with
  | nil => intro r; simp [disposeTax]
  | cons lot rest ih =>
    intro r
    by_cases hr : r > 0
    · by_cases h0 : lot.amount = 0
      · have hle : lot.amount ≤ r := by rw [h0]; exact le_of_lt hr
        have hsub : r - lot.amount = r := by rw [h0]; ring
        have hgain : min lot.amount r * (p - lot.priceUsd) = 0 := by
          rw [min_eq_left hle, h0, zero_mul]
        have hrec := ih r
        rw [show ((lot :: rest).filter (fun l => l.amount ≠ 0)) =
            (rest.filter (fun l => l.amount ≠ 0)) by simp [List.filter_cons, h0]]
        simp only [disposeTax, if_pos hr, if_pos hle, hsub, hgain]
        by_cases hlt : t - lot.timestamp ≥ ONE_YEAR <;>
          simp only [if_pos, if_neg, hlt, if_true, if_false, zero_add] <;>
            exact ⟨hrec.1, hrec.2⟩
      · by_cases hle : lot.amount ≤ r
        · have hrec := ih (r - lot.amount)
          rw [show ((lot :: rest).filter (fun l => l.amount ≠ 0)) =
              lot :: (rest.filter (fun l => l.amount ≠ 0)) by simp [List.filter_cons, h0]]
          simp only [disposeTax, if_pos hr, if_pos hle]
          by_cases hlt : t - lot.timestamp ≥ ONE_YEAR <;>
            simp only [if_pos, if_neg, hlt, if_true, if_false] <;>
              exact ⟨by rw [hrec.1], by rw [← hrec.2]⟩
        · have hpos : r < lot.amount := lt_of_not_le hle
          have hne : lot.amount - r ≠ 0 := sub_ne_zero.mpr (ne_of_gt hpos)
          rw [show ((lot :: rest).filter (fun l => l.amount ≠ 0)) =
              lot :: (rest.filter (fun l => l.amount ≠ 0)) by simp [List.filter_cons, h0]]
          simp only [disposeTax, if_pos hr, if_neg hle]
          by_cases hlt : t - lot.timestamp ≥ ONE_YEAR <;>
            simp [hlt, List.filter_cons, hne]
    · rw [disposeTax_nonpos p t r _ hr, disposeTax_nonpos p t r _ hr]
      simp

theorem taxFold_filter_nz (txs : List Transaction) :
    ∀ s t : TaxState, s.st = t.st → s.lt = t.lt →
      s.lots.filter (fun l => l.amount ≠ 0) = t.lots →
      (txs.foldl taxStep s).st =
          ((txs.filter (fun x => x.valueFormatted ≠ 0)).foldl taxStep t).st ∧
        (txs.foldl taxStep s).lt =
          ((txs.filter (fun x => x.valueFormatted ≠ 0)).foldl taxStep t).lt ∧
        (txs.foldl taxStep s).lots.filter (fun l => l.amount ≠ 0) =
          ((txs.filter (fun x => x.valueFormatted ≠ 0)).foldl taxStep t).lots := by
  induction txs with
  | nil => intro s t h1 h2 h3; exact ⟨h1, h2, h3⟩
  | cons tx rest ih =>
    intro s t h1 h2 h3
    by_cases hv : tx.valueFormatted = 0
    · have hstep : (taxStep s tx).st = s.st ∧ (taxStep s tx).lt = s.lt ∧
          (taxStep s tx).lots.filter (fun l => l.amount ≠ 0) =
            s.lots.filter (fun l => l.amount ≠ 0) := by
        cases htx : tx.type
        · simp [taxStep, htx,
            disposeTax_nonpos (tx.usdValueAtTime.getD 0) tx.timestamp tx.valueFormatted s.lots
              (by rw [hv]; norm_num)]
        · simp [taxStep, htx, List.filter_append, List.filter_cons, hv]
        · simp [taxStep, htx]
        · simp [taxStep, htx]
      have hrest := ih (taxStep s tx) t (hstep.1.trans h1) (hstep.2.1.trans h2)
        (hstep.2.2.trans h3)
      simpa [List.filter_cons, hv] using hrest
    · have hd := disposeTax_filter_nz (tx.usdValueAtTime.getD 0) tx.timestamp s.lots
        tx.valueFormatted
      have hstep : (taxStep s tx).st = (taxStep t tx).st ∧
          (taxStep s tx).lt = (taxStep t tx).lt ∧
          (taxStep s tx).lots.filter (fun l => l.amount ≠ 0) = (taxStep t tx).lots := by
        cases htx : tx.type
        · refine ⟨?_, ?_, ?_⟩
          · simp only [taxStep, htx]
            rw [h1, ← h3, hd.1]
          · simp only [taxStep, htx]
            rw [h2, ← h3, hd.1]
          · simp only [taxStep, htx]
            rw [← h3, ← hd.2]
        · refine ⟨?_, ?_, ?_⟩
          · simpa only [taxStep, htx] using h1
          · simpa only [taxStep, htx] using h2
          · simp only [taxStep, htx]
            rw [List.filter_append, h3]
            simp [List.filter_cons, hv]
        · simpa only [taxStep, htx] using ⟨h1, h2, h3⟩
        · simpa only [taxStep, htx] using ⟨h1, h2, h3⟩
      have hrest := ih (taxStep s tx) (taxStep t tx) hstep.1 hstep.2.1 hstep.2.2
      simpa [List.filter_cons, hv] using hrest

theorem sum_filter_of_vanish (K : List β) (h : β → ℚ) (p : β → Bool)
    (hv : ∀ k ∈ K, ¬ p k → h k = 0) :
    (K.map h).sum = ((K.filter p).map h).sum := by
  induction K with
  | nil => rfl
  | cons k ks ih =>
    have htail := ih (fun x hx hpx => hv x (List.mem_cons_of_mem k hx) hpx)
    by_cases hk : p k
    · simp [List.filter_cons, hk, htail]
    · simp [List.filter_cons, hk, htail, hv k (List.mem_cons_self k ks) hk]

theorem taxReplay_filter_nz (txs : List Transaction) :
    (taxReplay txs).st = (taxReplay (txs.filter (fun x => x.valueFormatted ≠ 0))).st ∧
      (taxReplay txs).lt = (taxReplay (txs.filter (fun x => x.valueFormatted ≠ 0))).lt := by
  have h := taxFold_filter_nz txs ⟨[], 0, 0⟩ ⟨[], 0, 0⟩ rfl rfl rfl
  exact ⟨h.1, h.2.1⟩

theorem tokenKeys_subset_of_filter (p : Transaction → Bool) (txs : List Transaction) :
    ∀ k ∈ tokenKeys (txs.filter p), k ∈ tokenKeys txs := by
  intro k hk
  rcases List.mem_map.mp (List.mem_dedup.mp hk) with ⟨tx, htx, hkey⟩
  exact List.mem_dedup.mpr (List.mem_map.mpr
    ⟨tx, (List.filter_sublist txs).subset htx, hkey⟩)

theorem groupKey_eq_nil_of_not_key (l : List Transaction) (k : ChainId × String)
    (hk : k ∉ tokenKeys l) : l.filter (fun tx => txKey tx = k) = [] := by
  rw [List.filter_eq_nil_iff]
  intro tx htx
  simp only [decide_eq_true_eq]
  intro he
  exact hk (List.mem_dedup.mpr (List.mem_map.mpr ⟨tx, htx, he⟩))

/-- Per token key, replaying the raw group and replaying the
zero-amount-filtered group accumulate the same gains. -/
theorem taxReplay_group_filter_nz (txs : List Transaction) (k : ChainId × String) :
    (taxReplay (sortByTs Transaction.timestamp
        (txs.filter (fun tx => txKey tx = k)))).st =
      (taxReplay (sortByTs Transaction.timestamp
        ((txs.filter (fun x => x.valueFormatted ≠ 0)).filter
          (fun tx => txKey tx = k)))).st ∧
    (taxReplay (sortByTs Transaction.timestamp
        (txs.filter (fun tx => txKey tx = k)))).lt =
      (taxReplay (sortByTs Transaction.timestamp
        ((txs.filter (fun x => x.valueFormatted ≠ 0)).filter
          (fun tx => txKey tx = k)))).lt := by
  have h := taxReplay_filter_nz (sortByTs Transaction.timestamp
    (txs.filter (fun tx => txKey tx = k)))
  rw [← sortByTs_filter, List.filter_comm] at h
  exact h

/-- Function `calculateTaxLots` is invariant under dropping zero-amount events. -/
theorem calculateTaxLots_filter_nz (txs : List Transaction) (cT : ℚ) :
    calculateTaxLots txs cT =
      calculateTaxLots (txs.filter (fun x => x.valueFormatted ≠ 0)) cT := by
  have hgroup : ∀ k, (taxReplay (sortByTs Transaction.timestamp
      (txs.filter (fun tx => txKey tx = k)))).st =
        (taxReplay (sortByTs Transaction.timestamp
          ((txs.filter (fun x => x.valueFormatted ≠ 0)).filter
            (fun tx => txKey tx = k)))).st ∧
      (taxReplay (sortByTs Transaction.timestamp
        (txs.filter (fun tx => txKey tx = k)))).lt =
        (taxReplay (sortByTs Transaction.timestamp
          ((txs.filter (fun x => x.valueFormatted ≠ 0)).filter
            (fun tx => txKey tx = k)))).lt :=
    fun k => taxReplay_group_filter_nz txs k
  have hperm : (tokenKeys txs).filter
      (fun k => k ∈ tokenKeys (txs.filter (fun x => x.valueFormatted ≠ 0))) |>.Perm
      (tokenKeys (txs.filter (fun x => x.valueFormatted ≠ 0))) := by
    have h1 : ((tokenKeys txs).filter (fun k => k ∈ tokenKeys
        (txs.filter (fun x => x.valueFormatted ≠ 0)))).Nodup :=
      List.Nodup.filter _ (List.nodup_dedup _)
    have h2 : (tokenKeys (txs.filter (fun x => x.valueFormatted ≠ 0))).Nodup :=
      List.nodup_dedup _
    refine (List.perm_ext_iff_of_nodup h1 h2).mpr (fun k => ?_)
    simp only [List.mem_filter, decide_eq_true_eq]
    exact ⟨fun h => h.2, fun h => ⟨tokenKeys_subset_of_filter _ txs k h, h⟩⟩
  have hvanish : ∀ k ∈ tokenKeys txs,
      ¬ (k ∈ tokenKeys (txs.filter (fun x => x.valueFormatted ≠ 0))) →
      ((taxReplay (sortByTs Transaction.timestamp
        ((txs.filter (fun x => x.valueFormatted ≠ 0)).filter
          (fun tx => txKey tx = k)))).st = 0 ∧
       (taxReplay (sortByTs Transaction.timestamp
        ((txs.filter (fun x => x.valueFormatted ≠ 0)).filter
          (fun tx => txKey tx = k)))).lt = 0) := by
    intro k _ hk
    rw [groupKey_eq_nil_of_not_key _ k hk]
    exact ⟨rfl, rfl⟩
  have hsum_st :
      (((tokenKeys txs).map (fun k => taxReplay (sortByTs Transaction.timestamp
          (txs.filter (fun tx => txKey tx = k))))).map TaxState.st).sum =
        (((tokenKeys (txs.filter (fun x => x.valueFormatted ≠ 0))).map
          (fun k => taxReplay (sortByTs Transaction.timestamp
            ((txs.filter (fun x => x.valueFormatted ≠ 0)).filter
              (fun tx => txKey tx = k))))).map TaxState.st).sum := by
    rw [List.map_map, List.map_map]
    calc ((tokenKeys txs).map (fun k => TaxState.st (taxReplay (sortByTs
            Transaction.timestamp (txs.filter (fun tx => txKey tx = k)))))).sum
        = ((tokenKeys txs).map (fun k => TaxState.st (taxReplay (sortByTs
            Transaction.timestamp ((txs.filter (fun x => x.valueFormatted ≠ 0)).filter
              (fun tx => txKey tx = k)))))).sum :=
          congrArg List.sum (List.map_congr_left (fun k _ => (hgroup k).1))
      _ = (((tokenKeys txs).filter (fun k => k ∈ tokenKeys
            (txs.filter (fun x => x.valueFormatted ≠ 0)))).map
              (fun k => TaxState.st (taxReplay (sortByTs Transaction.timestamp
                ((txs.filter (fun x => x.valueFormatted ≠ 0)).filter
                  (fun tx => txKey tx = k)))))).sum :=
          sum_filter_of_vanish _ _ _
            (fun k hk hnk => (hvanish k hk (by simpa using hnk)).1)
      _ = ((tokenKeys (txs.filter (fun x => x.valueFormatted ≠ 0))).map
            (fun k => TaxState.st (taxReplay (sortByTs Transaction.timestamp
              ((txs.filter (fun x => x.valueFormatted ≠ 0)).filter
                (fun tx => txKey tx = k)))))).sum :=
          (hperm.map _).sum_eq
  have hsum_lt :
      (((tokenKeys txs).map (fun k => taxReplay (sortByTs Transaction.timestamp
          (txs.filter (fun tx => txKey tx = k))))).map TaxState.lt).sum =
        (((tokenKeys (txs.filter (fun x => x.valueFormatted ≠ 0))).map
          (fun k => taxReplay (sortByTs Transaction.timestamp
            ((txs.filter (fun x => x.valueFormatted ≠ 0)).filter
              (fun tx => txKey tx = k))))).map TaxState.lt).sum := by
    rw [List.map_map, List.map_map]
    calc ((tokenKeys txs).map (fun k => TaxState.lt (taxReplay (sortByTs
            Transaction.timestamp (txs.filter (fun tx => txKey tx = k)))))).sum
        = ((tokenKeys txs).map (fun k => TaxState.lt (taxReplay (sortByTs
            Transaction.timestamp ((txs.filter (fun x => x.valueFormatted ≠ 0)).filter
              (fun tx => txKey tx = k)))))).sum :=
          congrArg List.sum (List.map_congr_left (fun k _ => (hgroup k).2))
      _ = (((tokenKeys txs).filter (fun k => k ∈ tokenKeys
            (txs.filter (fun x => x.valueFormatted ≠ 0)))).map
              (fun k => TaxState.lt (taxReplay (sortByTs Transaction.timestamp
                ((txs.filter (fun x => x.valueFormatted ≠ 0)).filter
                  (fun tx => txKey tx = k)))))).sum :=
          sum_filter_of_vanish _ _ _
            (fun k hk hnk => (hvanish k hk (by simpa using hnk)).2)
      _ = ((tokenKeys (txs.filter (fun x => x.valueFormatted ≠ 0))).map
            (fun k => TaxState.lt (taxReplay (sortByTs Transaction.timestamp
              ((txs.filter (fun x => x.valueFormatted ≠ 0)).filter
                (fun tx => txKey tx = k)))))).sum :=
          (hperm.map _).sum_eq
  simp only [calculateTaxLots]
  rw [hsum_st, hsum_lt]

theorem filter_insertIdx_of_neg (p : α → Bool) (e : α) (he : ¬ p e) :
    ∀ (i : ℕ) (l : List α), (l.insertIdx i e).filter p = l.filter p := by
  intro i
  induction i with
  | zero => intro l; simp [List.insertIdx_zero, List.filter_cons, he]
  | succ n ih =>
    intro l
    cases l with
    | nil => rfl
    | cons x xs => simp [List.insertIdx_succ_cons, List.filter_cons, ih]

/-! ## Claim theorems -/

/-- C2: On acquisitions of 10 units at price 1 (t = 0) and 10 units
at price 2 (t = 1) followed by a disposal of 15 units at price 3
(t = 2), `calculateFIFO` realizes exactly 25 and leaves exactly one lot
of 5 units at unit cost 2. -/
theorem fifo_example_realizes_25 :
    (calculateFIFO [⟨0, 10, 1, .buy⟩, ⟨1, 10, 2, .buy⟩, ⟨2, 15, 3, .sell⟩]).realizedPnL = 25 ∧
    (calculateFIFO [⟨0, 10, 1, .buy⟩, ⟨1, 10, 2, .buy⟩, ⟨2, 15, 3, .sell⟩]).lots =
      [⟨5, 2, 1⟩] := by
  constructor <;> norm_num [calculateFIFO, fifoStep, disposeFIFO]

/-- C1, counterexample: With one acquisition of 10 units at price 1
and a caller-supplied balance of 1 (positive but smaller than the
remaining lot sum 10), `calculateTokenPnL` values the position at the
supplied balance, not at `max balance lotSum` as the claim states: the
current value is `1 * 2 = 2`, not `10 * 2 = 20`. -/
theorem effectiveHoldings_not_max :
    (calculateTokenPnL ⟨"a", .ethereum⟩
        [⟨"h1", .ethereum, 10, ⟨"a", .ethereum⟩, 0, .receive, some 1⟩] ⟨1⟩ 2).currentValue ≠
      specEffectiveHoldings ⟨"a", .ethereum⟩
        [⟨"h1", .ethereum, 10, ⟨"a", .ethereum⟩, 0, .receive, some 1⟩] ⟨1⟩ * 2 := by
  norm_num [calculateTokenPnL, specEffectiveHoldings, tokenRemainingAmount, simplify,
    sortByTs, insertByTs, calculateFIFO, fifoStep, disposeFIFO, lotsAmount, lotsCost]

/-- C1, amended: The effective holdings `calculateTokenPnL` uses for
valuation are the caller-supplied balance whenever that balance is
positive, and the sum of the remaining lot amounts only when the supplied
balance is zero or negative: `currentValue = eff * price` and
`unrealizedPnL = eff * price - costBasis * eff` with
`eff = if balance > 0 then balance else remainingLotSum`. -/
theorem effectiveHoldings_balance_else_lots (token : Token) (txs : List Transaction)
    (bal : Balance) (price : ℚ) :
    (calculateTokenPnL token txs bal price).currentValue =
      (if bal.balanceFormatted > 0 then bal.balanceFormatted
        else tokenRemainingAmount token txs) * price ∧
    (calculateTokenPnL token txs bal price).unrealizedPnL =
      (if bal.balanceFormatted > 0 then bal.balanceFormatted
        else tokenRemainingAmount token txs) * price -
      (calculateTokenPnL token txs bal price).costBasis *
      (if bal.balanceFormatted > 0 then bal.balanceFormatted
        else tokenRemainingAmount token txs) := by
  constructor <;> rfl

/-- C10: The `currentTimestamp` parameter of `calculateTaxLots` is
never read: any two values give identical results. -/
theorem calculateTaxLots_ignores_currentTimestamp
    (txs : List Transaction) (t1 t2 : ℚ) :
    calculateTaxLots txs t1 = calculateTaxLots txs t2 := rfl

/-- C8: When every entry satisfies the engine-produced invariant
`totalPnL = realizedPnL + unrealizedPnL`, the portfolio `totalPnL` of
`calculatePortfolioPnL` is the sum of the per-token `totalPnL`s, and the
values of the per-chain record built by `calculatePnLByChain` sum to the
same portfolio total. -/
theorem portfolio_total_eq_sum (l : List PnLCalculation)
    (h : ∀ p ∈ l, p.totalPnL = p.realizedPnL + p.unrealizedPnL) :
    (calculatePortfolioPnL l).totalPnL = (l.map PnLCalculation.totalPnL).sum ∧
    ((calculatePnLByChain l).map Prod.snd).sum = (calculatePortfolioPnL l).totalPnL := by
  have key : (l.map PnLCalculation.totalPnL).sum =
      (l.map PnLCalculation.realizedPnL).sum + (l.map PnLCalculation.unrealizedPnL).sum := by
    rw [← sum_map_add]
    exact congrArg List.sum (List.map_congr_left h)
  refine ⟨?_, ?_⟩
  · simpa [calculatePortfolioPnL] using key.symm
  · have := pnlByChain_fold_snd_sum l []
    simpa [calculatePnLByChain, calculatePortfolioPnL, key] using this

/-- C8, witness: The aggregation identity instantiated on a concrete
two-token list whose entries satisfy the `totalPnL` invariant. -/
theorem portfolio_total_eq_sum_witness :
    (calculatePortfolioPnL
        [⟨⟨"a", .ethereum⟩, .ethereum, 1, 2, 3, 0, 0, 0, 0⟩,
         ⟨⟨"b", .polygon⟩, .polygon, 4, 5, 9, 0, 0, 0, 0⟩]).totalPnL =
      ([⟨⟨"a", .ethereum⟩, .ethereum, 1, 2, 3, 0, 0, 0, 0⟩,
        ⟨⟨"b", .polygon⟩, .polygon, 4, 5, 9, 0, 0, 0, 0⟩].map
          PnLCalculation.totalPnL).sum ∧
    ((calculatePnLByChain
        [⟨⟨"a", .ethereum⟩, .ethereum, 1, 2, 3, 0, 0, 0, 0⟩,
         ⟨⟨"b", .polygon⟩, .polygon, 4, 5, 9, 0, 0, 0, 0⟩]).map Prod.snd).sum =
      (calculatePortfolioPnL
        [⟨⟨"a", .ethereum⟩, .ethereum, 1, 2, 3, 0, 0, 0, 0⟩,
         ⟨⟨"b", .polygon⟩, .polygon, 4, 5, 9, 0, 0, 0, 0⟩]).totalPnL :=
  portfolio_total_eq_sum _ (by intro p hp; simp at hp; rcases hp with h | h <;> subst h <;> norm_num)

/-- C9, counterexample: On a single zero-amount `send` on Ethereum,
the handler's `realizedEvents` is 1 (it counts every `send` in the raw
input, globally), while the claim's per-chain count of disposal events
surviving zero-amount filtering is 0 for every chain. -/
theorem realizedEvents_counts_zero_amount_sends :
    realizedEvents [⟨"h", .ethereum, 0, ⟨"a", .ethereum⟩, 0, .send, some 1⟩] = 1 ∧
    specRealizedEventCount [⟨"h", .ethereum, 0, ⟨"a", .ethereum⟩, 0, .send, some 1⟩]
      .ethereum = 0 := by
  decide

/-- C9, amended: The tax summary's `realizedEvents` is a single
global count of all `send`-type events in the raw input (zero-amount
events included), one per disposal event rather than one per lot-match;
it equals the sum over the four chains of the per-chain `send` counts of
the handler's `txsByChain` partition. -/
theorem realizedEvents_eq_sum_over_chains (txs : List Transaction) :
    realizedEvents txs =
      (ChainId.all.map (fun c =>
        ((txs.filter (fun t => t.chainId = c)).filter
          (fun t => t.type = TxType.send)).length)).sum := by
  induction txs with
  | nil => rfl
  | cons t ts ih =>
    simp only [realizedEvents, ChainId.all, List.map_cons, List.map_nil, List.sum_cons,
      List.sum_nil, List.filter_cons] at ih ⊢
    cases hc : t.chainId <;> cases ht : t.type <;> simp [hc, ht, ih] <;> omega


/-- C7: Inserting a zero-amount event at any position changes neither
`calculateTokenPnL` (any field) nor `calculateTaxLots`: the PnL pass
filters zero-amount events out, and in the tax pass a zero-amount
`receive` creates a lot that is later consumed with zero gain while a
zero-amount `send` never enters the disposal loop. -/
theorem zero_amount_insert_noop (token : Token) (bal : Balance) (price cT : ℚ)
    (txs : List Transaction) (i : ℕ) (e : Transaction)
    (he : e.valueFormatted = 0) :
    calculateTokenPnL token (txs.insertIdx i e) bal price =
      calculateTokenPnL token txs bal price ∧
    calculateTaxLots (txs.insertIdx i e) cT = calculateTaxLots txs cT := by
  constructor
  · have hlist : ((txs.insertIdx i e).filter (fun tx =>
        toLowerStr tx.token.address = toLowerStr token.address ∧
          tx.chainId = token.chainId)).filter (fun tx => tx.valueFormatted > 0) =
        (txs.filter (fun tx =>
          toLowerStr tx.token.address = toLowerStr token.address ∧
            tx.chainId = token.chainId)).filter (fun tx => tx.valueFormatted > 0) := by
      rw [List.filter_filter, List.filter_filter]
      exact filter_insertIdx_of_neg _ e (by simp [he]) i txs
    simp only [calculateTokenPnL, hlist]
  · calc calculateTaxLots (txs.insertIdx i e) cT
        = calculateTaxLots ((txs.insertIdx i e).filter
            (fun x => x.valueFormatted ≠ 0)) cT := calculateTaxLots_filter_nz _ cT
      _ = calculateTaxLots (txs.filter (fun x => x.valueFormatted ≠ 0)) cT := by
          rw [filter_insertIdx_of_neg _ e (by simp [he]) i txs]
      _ = calculateTaxLots txs cT := (calculateTaxLots_filter_nz txs cT).symm

/-- C7, witness: The no-op property instantiated: a zero-amount
`send` inserted into a one-acquisition history changes nothing. -/
theorem zero_amount_insert_noop_witness :
    calculateTokenPnL ⟨"a", .ethereum⟩
        ([⟨"h1", .ethereum, 5, ⟨"a", .ethereum⟩, 0, .receive, some 1⟩].insertIdx 1
          ⟨"h2", .ethereum, 0, ⟨"a", .ethereum⟩, 3, .send, some 7⟩) ⟨0⟩ 2 =
      calculateTokenPnL ⟨"a", .ethereum⟩
        [⟨"h1", .ethereum, 5, ⟨"a", .ethereum⟩, 0, .receive, some 1⟩] ⟨0⟩ 2 ∧
    calculateTaxLots
        ([⟨"h1", .ethereum, 5, ⟨"a", .ethereum⟩, 0, .receive, some 1⟩].insertIdx 1
          ⟨"h2", .ethereum, 0, ⟨"a", .ethereum⟩, 3, .send, some 7⟩) 0 =
      calculateTaxLots
        [⟨"h1", .ethereum, 5, ⟨"a", .ethereum⟩, 0, .receive, some 1⟩] 0 :=
  zero_amount_insert_noop ⟨"a", .ethereum⟩ ⟨0⟩ 2 0 _ 1 _ rfl

/-- C6: For a matched disposal, the gain is long-term exactly when
the disposal timestamp minus the lot's acquisition timestamp is at least
`ONE_YEAR = 365 * 24 * 60 * 60 * 1000` milliseconds: on an acquisition of
`a` units at price `p` (time `t0`) fully disposed at price `q` (time
`t`), `calculateTaxLots` books the whole gain `a * (q - p)` as long-term
when `t - t0 ≥ ONE_YEAR` (the boundary itself included) and as
short-term when `t - t0 < ONE_YEAR`. -/
theorem tax_holding_period_boundary (c : ChainId) (addr hs1 hs2 : String)
    (a p q t0 t cT : ℚ) (ha : 0 < a) (ht : t0 ≤ t) :
    (ONE_YEAR ≤ t - t0 →
      calculateTaxLots
        [⟨hs1, c, a, ⟨addr, c⟩, t0, .receive, some p⟩,
         ⟨hs2, c, a, ⟨addr, c⟩, t, .send, some q⟩] cT =
        ⟨0, a * (q - p), 0 + a * (q - p)⟩) ∧
    (t - t0 < ONE_YEAR →
      calculateTaxLots
        [⟨hs1, c, a, ⟨addr, c⟩, t0, .receive, some p⟩,
         ⟨hs2, c, a, ⟨addr, c⟩, t, .send, some q⟩] cT =
        ⟨a * (q - p), 0, a * (q - p) + 0⟩) := by
  have hkeys : tokenKeys
      [⟨hs1, c, a, ⟨addr, c⟩, t0, .receive, some p⟩,
       ⟨hs2, c, a, ⟨addr, c⟩, t, .send, some q⟩] = [(c, addr)] := by
    simp [tokenKeys, txKey, List.dedup_cons_of_mem]
  constructor
  · intro hl
    have hnotlt : t - t0 ≥ ONE_YEAR := hl
    simp [calculateTaxLots, hkeys, txKey, sortByTs, insertByTs, ht,
      taxReplay, taxStep, disposeTax, ha, le_refl, hnotlt, TaxResult.mk.injEq]
  · intro hl
    have hnotge : ¬ (t - t0 ≥ ONE_YEAR) := not_le.mpr hl
    simp [calculateTaxLots, hkeys, txKey, sortByTs, insertByTs, ht,
      taxReplay, taxStep, disposeTax, ha, le_refl, hnotge, TaxResult.mk.injEq]

/-- C6, witness: The boundary case itself: a disposal exactly
`365 * 24` hours after acquisition is long-term. -/
theorem tax_holding_period_boundary_witness :
    calculateTaxLots
        [⟨"h1", .ethereum, 1, ⟨"a", .ethereum⟩, 0, .receive, some 0⟩,
         ⟨"h2", .ethereum, 1, ⟨"a", .ethereum⟩, 31536000000, .send, some 1⟩] 0 =
      ⟨0, 1 * (1 - 0), 0 + 1 * (1 - 0)⟩ :=
  (tax_holding_period_boundary ChainId.ethereum "a" "h1" "h2" 1 0 1 0 31536000000 0
    (by norm_num) (by norm_num)).1 (by norm_num [ONE_YEAR])

theorem disposeFIFO_lots_pos (p : ℚ) (lots : List Lot)
    (h : ∀ l ∈ lots, 0 < l.amount) :
    ∀ r, ∀ l ∈ (disposeFIFO p r lots).2, 0 < l.amount := by
  induction lots with
  | nil => intro r l hl; simp [disposeFIFO] at hl
  | cons lot rest ih =>
    intro r l hl
    by_cases hr : r > 0
    · by_cases hle : lot.amount ≤ r
      · simp only [disposeFIFO, if_pos hr, if_pos hle] at hl
        exact ih (fun x hx => h x (List.mem_cons_of_mem _ hx)) (r - lot.amount) l hl
      · simp only [disposeFIFO, if_pos hr, if_neg hle] at hl
        rcases List.mem_cons.mp hl with hl | hl
        · rw [hl]
          exact sub_pos.mpr (lt_of_not_le hle)
        · exact h l (List.mem_cons_of_mem _ hl)
    · simp only [disposeFIFO, if_neg hr] at hl
      exact h l hl

theorem fifoFold_lots_pos (txs : List TokenTransaction)
    (htx : ∀ tx ∈ txs, 0 < tx.amount) :
    ∀ s : FIFOState, (∀ l ∈ s.lots, 0 < l.amount) →
      ∀ l ∈ (txs.foldl fifoStep s).lots, 0 < l.amount := by
  induction txs with
  | nil => intro s hs; simpa using hs
  | cons tx rest ih =>
    intro s hs
    have hstep : ∀ l ∈ (fifoStep s tx).lots, 0 < l.amount := by
      cases htt : tx.type
      · simp only [fifoStep, htt]
        intro l hl
        rcases List.mem_append.mp hl with hl | hl
        · exact hs l hl
        · rw [List.mem_singleton.mp hl]
          exact htx tx (List.mem_cons_self tx rest)
      · simp only [fifoStep, htt]
        exact disposeFIFO_lots_pos tx.priceUsd s.lots hs tx.amount
      · simp only [fifoStep, htt]
        intro l hl
        rcases List.mem_append.mp hl with hl | hl
        · exact hs l hl
        · rw [List.mem_singleton.mp hl]
          exact htx tx (List.mem_cons_self tx rest)
      · simp only [fifoStep, htt]
        exact disposeFIFO_lots_pos tx.priceUsd s.lots hs tx.amount
    exact ih (fun x hx => htx x (List.mem_cons_of_mem tx hx)) (fifoStep s tx) hstep

theorem lotsAmount_nonneg (lots : List Lot) (h : ∀ l ∈ lots, 0 < l.amount) :
    0 ≤ lotsAmount lots := by
  apply List.sum_nonneg
  intro x hx
  rcases List.mem_map.mp hx with ⟨l, hl, hxl⟩
  exact hxl ▸ le_of_lt (h l hl)

theorem disposeFIFO_oversell (p : ℚ) (lots : List Lot) :
    ∀ r, (∀ l ∈ lots, 0 < l.amount) → lotsAmount lots ≤ r →
      disposeFIFO p r lots = (lotsAmount lots * p - lotsCost lots, []) := by
  induction lots with
  | nil => intro r _ _; simp [disposeFIFO, lotsAmount, lotsCost]
  | cons lot rest ih =>
    intro r h hr
    have hpos : 0 < lot.amount := h lot (List.mem_cons_self lot rest)
    have hrest : ∀ l ∈ rest, 0 < l.amount := fun l hl => h l (List.mem_cons_of_mem _ hl)
    have hrest0 : 0 ≤ lotsAmount rest := lotsAmount_nonneg rest hrest
    have hsum : lotsAmount (lot :: rest) = lot.amount + lotsAmount rest := by
      simp [lotsAmount]
    have hr0 : r > 0 := lt_of_lt_of_le (by rw [hsum] at hr ⊢; linarith) hr
    have hle : lot.amount ≤ r := by rw [hsum] at hr; linarith
    have hrec := ih (r - lot.amount) hrest (by rw [hsum] at hr; linarith)
    simp only [disposeFIFO, if_pos hr0, if_pos hle, hrec]
    simp [lotsAmount, lotsCost]
    ring

/-- C5: Over-selling is safe.  First conjunct: when every event has a
positive amount, at every step of the FIFO replay (i.e., after any prefix
of the event list) every lot resident in the ledger has a strictly
positive amount.  Second conjunct: a disposal whose amount is at least
the total resident lot amount consumes exactly the ledger — the realized
PnL contribution is the matched portion
`lotsAmount * price - lotsCost` (independent of the excess) and the
ledger is left empty; the replay is a total function, so no error can be
raised. -/
theorem oversell_safe :
    (∀ (txs : List TokenTransaction), (∀ tx ∈ txs, 0 < tx.amount) →
      ∀ (n : ℕ), ∀ l ∈ (calculateFIFO (txs.take n)).lots, 0 < l.amount) ∧
    (∀ (p r : ℚ) (lots : List Lot), (∀ l ∈ lots, 0 < l.amount) →
      lotsAmount lots ≤ r →
      disposeFIFO p r lots = (lotsAmount lots * p - lotsCost lots, [])) := by
  constructor
  · intro txs htx n
    exact fifoFold_lots_pos (txs.take n)
      (fun tx hx => htx tx (List.take_subset n txs hx)) ⟨[], 0, 0⟩ (by simp)
  · intro p r lots h hr
    exact disposeFIFO_oversell p lots r h hr

/-- C5, witness: Both conjuncts instantiated: a history that sells 9
units having acquired only 5 keeps all lot amounts positive at every
step, and the oversized disposal consumes exactly the 5-unit lot. -/
theorem oversell_safe_witness :
    (∀ l ∈ (calculateFIFO ([⟨0, 5, 1, .buy⟩, ⟨1, 9, 2, .sell⟩].take 2)).lots,
      0 < l.amount) ∧
    disposeFIFO 2 9 [⟨5, 1, 0⟩] = (lotsAmount [⟨5, 1, 0⟩] * 2 - lotsCost [⟨5, 1, 0⟩], []) := by
  constructor
  · exact oversell_safe.1 [⟨0, 5, 1, .buy⟩, ⟨1, 9, 2, .sell⟩]
      (by intro tx htx; rcases List.mem_cons.mp htx with h | h
          · rw [h]; norm_num
          · rw [List.mem_singleton.mp h]; norm_num) 2
  · exact oversell_safe.2 2 9 [⟨5, 1, 0⟩]
      (by intro l hl; rw [List.mem_singleton.mp hl]; norm_num)
      (by norm_num [lotsAmount])

theorem mem_sortByTs (ts : α → ℚ) (l : List α) (z : α) :
    z ∈ sortByTs ts l ↔ z ∈ l := by
  induction l with
  | nil => simp [sortByTs]
  | cons x xs ih => simp [sortByTs, mem_insertByTs, ih]

/-- On lists whose events are all `receive`/`send`, the tax replay and
the FIFO replay (of the `simplify`-mapped list) walk identical ledgers,
and the FIFO `realizedPnL` is the sum of the tax replay's short- and
long-term gains. -/
theorem taxFold_eq_fifoFold (txs : List Transaction)
    (htype : ∀ tx ∈ txs, tx.type = TxType.receive ∨ tx.type = TxType.send) :
    ∀ (f : FIFOState) (t : TaxState), f.lots = t.lots →
      f.realizedPnL = t.st + t.lt →
      ((txs.map simplify).foldl fifoStep f).lots = (txs.foldl taxStep t).lots ∧
      ((txs.map simplify).foldl fifoStep f).realizedPnL =
        (txs.foldl taxStep t).st + (txs.foldl taxStep t).lt := by
  induction txs with
  | nil => intro f t h1 h2; exact ⟨h1, h2⟩
  | cons tx rest ih =>
    intro f t h1 h2
    have hrest := fun x hx => htype x (List.mem_cons_of_mem tx hx)
    rcases htype tx (List.mem_cons_self tx rest) with hty | hty
    · have hsim : (simplify tx).type = TTType.buy := by simp [simplify, hty]
      simp only [List.map_cons, List.foldl_cons]
      apply ih hrest
      · simp [fifoStep, taxStep, hsim, hty, simplify, h1]
      · simp [fifoStep, taxStep, hsim, hty, h2]
    · have hsim : (simplify tx).type = TTType.sell := by simp [simplify, hty]
      have hd := disposeTax_sum_fifo (tx.usdValueAtTime.getD 0) tx.timestamp t.lots
        tx.valueFormatted
      simp only [List.map_cons, List.foldl_cons]
      apply ih hrest
      · simp only [fifoStep, hsim, taxStep, hty]
        simp only [simplify]
        rw [h1, ← hd.2]
      · simp only [fifoStep, hsim, taxStep, hty]
        simp only [simplify]
        rw [h1, h2, ← hd.1]
        ring

/-- Per token key, the `realizedPnL` that `calculateTokenPnL` computes
equals the total (short + long) gain the tax classifier accumulates for
that key, provided all events are `receive`/`send` with non-negative
amounts and consistently lowercase addresses. -/
theorem tokenPnL_realized_eq_taxReplay (txs : List Transaction) (k : ChainId × String)
    (hk : k ∈ tokenKeys txs)
    (htype : ∀ tx ∈ txs, tx.type = TxType.receive ∨ tx.type = TxType.send)
    (hnn : ∀ tx ∈ txs, 0 ≤ tx.valueFormatted)
    (hlower : ∀ tx ∈ txs, toLowerStr tx.token.address = tx.token.address)
    (bal : Balance) (pr : ℚ) :
    (calculateTokenPnL ⟨k.2, k.1⟩ txs bal pr).realizedPnL =
      (taxReplay (sortByTs Transaction.timestamp
        (txs.filter (fun tx => txKey tx = k)))).st +
      (taxReplay (sortByTs Transaction.timestamp
        (txs.filter (fun tx => txKey tx = k)))).lt := by
  have hk2 : toLowerStr k.2 = k.2 := by
    rcases List.mem_map.mp (List.mem_dedup.mp hk) with ⟨tx0, htx0, hkey⟩
    rw [← hkey]
    exact hlower tx0 htx0
  have hfilter : txs.filter (fun tx =>
      toLowerStr tx.token.address = toLowerStr (⟨k.2, k.1⟩ : Token).address ∧
        tx.chainId = (⟨k.2, k.1⟩ : Token).chainId) =
      txs.filter (fun tx => txKey tx = k) := by
    apply List.filter_congr
    intro tx htx
    rw [decide_eq_decide]
    simp only [txKey, Prod.ext_iff, hk2, hlower tx htx]
    tauto
  have heq : (calculateTokenPnL ⟨k.2, k.1⟩ txs bal pr).realizedPnL =
      (calculateFIFO (sortByTs TokenTransaction.timestamp
        (((txs.filter (fun tx => txKey tx = k)).filter
          (fun tx => tx.valueFormatted > 0)).map simplify))).realizedPnL := by
    simp only [calculateTokenPnL, hfilter]
  rw [heq, ← sortByTs_map Transaction.timestamp TokenTransaction.timestamp simplify
    (fun x => rfl)]
  have hmemsort : ∀ tx ∈ sortByTs Transaction.timestamp
      ((txs.filter (fun tx => txKey tx = k)).filter (fun tx => tx.valueFormatted > 0)),
      tx.type = TxType.receive ∨ tx.type = TxType.send := by
    intro tx htx
    have hmem := (mem_sortByTs _ _ _).mp htx
    exact htype tx ((List.filter_sublist _).subset ((List.filter_sublist _).subset hmem))
  have hrel := taxFold_eq_fifoFold _ hmemsort ⟨[], 0, 0⟩ ⟨[], 0, 0⟩ rfl (by norm_num)
  simp only [calculateFIFO, taxReplay]
  rw [hrel.2]
  have hcong : (txs.filter (fun tx => txKey tx = k)).filter
      (fun tx => tx.valueFormatted > 0) =
      (txs.filter (fun tx => txKey tx = k)).filter
        (fun tx => tx.valueFormatted ≠ 0) := by
    apply List.filter_congr
    intro tx htx
    have h0 := hnn tx ((List.filter_sublist _).subset htx)
    rw [decide_eq_decide]
    exact ⟨fun h => ne_of_gt h, fun h => lt_of_le_of_ne h0 (Ne.symm h)⟩
  have hz := taxReplay_filter_nz (sortByTs Transaction.timestamp
    (txs.filter (fun tx => txKey tx = k)))
  rw [← sortByTs_filter] at hz
  simp only [taxReplay] at hz
  rw [hcong, ← hz.1, ← hz.2]

/-- C4, counterexample: On a `swap` acquisition followed by a `send`
disposal, the PnL pass realizes `1 * (2 - 1) = 1` (a `swap` counts as a
buy), while `calculateTaxLots` ignores the `swap`, finds no lot for the
`send`, and reports total capital gains `0`. -/
theorem aggregate_realized_ne_tax_total :
    aggregateRealizedPnL
        [⟨"h1", .ethereum, 1, ⟨"a", .ethereum⟩, 0, .swap, some 1⟩,
         ⟨"h2", .ethereum, 1, ⟨"a", .ethereum⟩, 1, .send, some 2⟩] ≠
      (calculateTaxLots
        [⟨"h1", .ethereum, 1, ⟨"a", .ethereum⟩, 0, .swap, some 1⟩,
         ⟨"h2", .ethereum, 1, ⟨"a", .ethereum⟩, 1, .send, some 2⟩] 0).totalCapitalGains := by
  have h1 : (TxType.swap = TxType.receive ∨ TxType.swap = TxType.swap) = True := by simp
  have h2 : (TxType.send = TxType.receive ∨ TxType.send = TxType.swap) = False := by simp
  norm_num [aggregateRealizedPnL, calculateTaxLots, tokenKeys, txKey,
    calculateTokenPnL, simplify, h1, h2, sortByTs, insertByTs, calculateFIFO, fifoStep,
    disposeFIFO, taxReplay, taxStep, disposeTax, lotsAmount, lotsCost, List.dedup]

/-- C4, amended: When every event is a plain `receive` or `send`
(no `swap`s, which the tax classifier ignores but the PnL pass buys),
amounts are non-negative and token addresses are consistently lowercase
(the PnL pass matches addresses case-insensitively while the tax
classifier's keys are case-sensitive), the summed `realizedPnL` of the
PnL pass over all token keys equals `calculateTaxLots`'s
`totalCapitalGains` on the same events. -/
theorem aggregate_realized_eq_tax_total (txs : List Transaction) (cT : ℚ)
    (htype : ∀ tx ∈ txs, tx.type = TxType.receive ∨ tx.type = TxType.send)
    (hnn : ∀ tx ∈ txs, 0 ≤ tx.valueFormatted)
    (hlower : ∀ tx ∈ txs, toLowerStr tx.token.address = tx.token.address) :
    aggregateRealizedPnL txs = (calculateTaxLots txs cT).totalCapitalGains := by
  simp only [aggregateRealizedPnL, calculateTaxLots, List.map_map]
  rw [List.map_congr_left (fun k hk =>
    tokenPnL_realized_eq_taxReplay txs k hk htype hnn hlower ⟨0⟩ 0)]
  rw [sum_map_add (tokenKeys txs)
    (fun k => (taxReplay (sortByTs Transaction.timestamp
      (txs.filter (fun tx => txKey tx = k)))).st)
    (fun k => (taxReplay (sortByTs Transaction.timestamp
      (txs.filter (fun tx => txKey tx = k)))).lt)]
  rfl

/-- C4, witness: The amended equivalence instantiated on a concrete
receive/send history: both passes report 20. -/
theorem aggregate_realized_eq_tax_total_witness :
    aggregateRealizedPnL
        [⟨"h1", .ethereum, 10, ⟨"a", .ethereum⟩, 0, .receive, some 1⟩,
         ⟨"h2", .ethereum, 15, ⟨"a", .ethereum⟩, 2, .send, some 3⟩] =
      (calculateTaxLots
        [⟨"h1", .ethereum, 10, ⟨"a", .ethereum⟩, 0, .receive, some 1⟩,
         ⟨"h2", .ethereum, 15, ⟨"a", .ethereum⟩, 2, .send, some 3⟩] 0).totalCapitalGains := by
  apply aggregate_realized_eq_tax_total
  · intro tx htx
    rcases List.mem_cons.mp htx with h | h
    · rw [h]; left; rfl
    · rw [List.mem_singleton.mp h]; right; rfl
  · intro tx htx
    rcases List.mem_cons.mp htx with h | h
    · rw [h]; norm_num
    · rw [List.mem_singleton.mp h]; norm_num
  · intro tx htx
    rcases List.mem_cons.mp htx with h | h
    · rw [h]; decide
    · rw [List.mem_singleton.mp h]; decide

theorem chainTaxStep_eq_taxStep : chainTaxStep = taxStep := by
  funext s tx
  cases htx : tx.type
  · simp only [chainTaxStep, taxStep, htx]
    rw [chainDispose_eq_disposeTax]
    simp
  · simp [chainTaxStep, taxStep, htx]
  · simp [chainTaxStep, taxStep, htx]
  · simp [chainTaxStep, taxStep, htx]

theorem byChainGains_eq_taxReplay (txs : List Transaction) (c : ChainId) :
    byChainGains txs c =
      ⟨(taxReplay (sortByTs Transaction.timestamp
          (txs.filter (fun tx => tx.chainId = c)))).st,
        (taxReplay (sortByTs Transaction.timestamp
          (txs.filter (fun tx => tx.chainId = c)))).lt,
        (taxReplay (sortByTs Transaction.timestamp
          (txs.filter (fun tx => tx.chainId = c)))).st +
          (taxReplay (sortByTs Transaction.timestamp
            (txs.filter (fun tx => tx.chainId = c)))).lt⟩ := by
  simp only [byChainGains, taxReplay, chainTaxStep_eq_taxStep]

theorem mem_tokenKeys (txs : List Transaction) (k : ChainId × String) :
    k ∈ tokenKeys txs ↔ ∃ tx ∈ txs, txKey tx = k := by
  simp [tokenKeys, List.mem_dedup]

theorem mem_ChainId_all (c : ChainId) : c ∈ ChainId.all := by
  cases c <;> simp [ChainId.all]

/-- The per-chain / global aggregation argument, generic in the gain
selector `f` (`TaxState.st` or `TaxState.lt`). -/
theorem byChain_sum_generic (txs : List Transaction)
    (hnn : ∀ tx ∈ txs, 0 ≤ tx.valueFormatted)
    (hone : ∀ t1 ∈ txs, ∀ t2 ∈ txs, t1.chainId = t2.chainId →
      t1.token.address = t2.token.address)
    (f : TaxState → ℚ) (hf : f ⟨[], 0, 0⟩ = 0)
    (hinv : ∀ l : List Transaction,
      f (taxReplay (sortByTs Transaction.timestamp l)) =
        f (taxReplay (sortByTs Transaction.timestamp
          (l.filter (fun x => x.valueFormatted ≠ 0))))) :
    (ChainId.all.map (fun c => f (taxReplay (sortByTs Transaction.timestamp
      (txs.filter (fun tx => tx.chainId = c)))))).sum =
    ((tokenKeys (txs.filter (fun t => t.valueFormatted > 0))).map (fun k =>
      f (taxReplay (sortByTs Transaction.timestamp
        ((txs.filter (fun t => t.valueFormatted > 0)).filter
          (fun tx => txKey tx = k)))))).sum := by
  have hPF : txs.filter (fun t => t.valueFormatted > 0) =
      txs.filter (fun t => t.valueFormatted ≠ 0) := by
    apply List.filter_congr
    intro tx htx
    rw [decide_eq_decide]
    exact ⟨fun h => ne_of_gt h, fun h => lt_of_le_of_ne (hnn tx htx) (Ne.symm h)⟩
  have hkey_mem : ∀ k ∈ tokenKeys (txs.filter (fun t => t.valueFormatted > 0)),
      ∃ tx ∈ txs, txKey tx = k ∧ tx.valueFormatted > 0 := by
    intro k hk
    rcases (mem_tokenKeys _ k).mp hk with ⟨tx, htx, hkey⟩
    rcases List.mem_filter.mp htx with ⟨htxs, hpos⟩
    exact ⟨tx, htxs, hkey, by simpa using hpos⟩
  have hDfilter : ∀ k ∈ tokenKeys (txs.filter (fun t => t.valueFormatted > 0)),
      txs.filter (fun tx => txKey tx = k) =
        txs.filter (fun tx => tx.chainId = k.1) := by
    intro k hk
    rcases hkey_mem k hk with ⟨tx0, htx0, hkey0, _⟩
    apply List.filter_congr
    intro tx htx
    rw [decide_eq_decide]
    constructor
    · intro h
      rw [← h]
      rfl
    · intro h
      have hchain : tx.chainId = tx0.chainId := by
        rw [h, ← hkey0]
        rfl
      have haddr : tx.token.address = tx0.token.address :=
        hone tx htx tx0 htx0 hchain
      rw [← hkey0]
      simp [txKey, Prod.ext_iff, hchain, haddr]
  have hgroups : ∀ k ∈ tokenKeys (txs.filter (fun t => t.valueFormatted > 0)),
      f (taxReplay (sortByTs Transaction.timestamp
        ((txs.filter (fun t => t.valueFormatted > 0)).filter
          (fun tx => txKey tx = k)))) =
      f (taxReplay (sortByTs Transaction.timestamp
        (txs.filter (fun tx => tx.chainId = k.1)))) := by
    intro k hk
    rw [hPF, List.filter_comm, ← hinv (txs.filter (fun tx => txKey tx = k)),
      hDfilter k hk]
  have hCs_nodup : ((tokenKeys (txs.filter
      (fun t => t.valueFormatted > 0))).map Prod.fst).Nodup := by
    apply List.Nodup.map_on
    · intro k1 hk1 k2 hk2 hfst
      rcases hkey_mem k1 hk1 with ⟨tx1, htx1, hkey1, _⟩
      rcases hkey_mem k2 hk2 with ⟨tx2, htx2, hkey2, _⟩
      have hchain : tx1.chainId = tx2.chainId := by
        have e1 : tx1.chainId = k1.1 := by rw [← hkey1]; rfl
        have e2 : tx2.chainId = k2.1 := by rw [← hkey2]; rfl
        rw [e1, e2, hfst]
      have haddr : tx1.token.address = tx2.token.address :=
        hone tx1 htx1 tx2 htx2 hchain
      rw [← hkey1, ← hkey2]
      simp [txKey, Prod.ext_iff, hchain, haddr, hfst]
    · exact List.nodup_dedup _
  have hvanish : ∀ c ∈ ChainId.all,
      ¬ (c ∈ (tokenKeys (txs.filter (fun t => t.valueFormatted > 0))).map Prod.fst) →
      f (taxReplay (sortByTs Transaction.timestamp
        (txs.filter (fun tx => tx.chainId = c)))) = 0 := by
    intro c _ hc
    have hall0 : ∀ tx ∈ txs.filter (fun tx => tx.chainId = c),
        tx.valueFormatted = 0 := by
      intro tx htx
      rcases List.mem_filter.mp htx with ⟨htxs, hchain⟩
      by_contra hne
      have hpos : tx.valueFormatted > 0 :=
        lt_of_le_of_ne (hnn tx htxs) (Ne.symm hne)
      apply hc
      refine List.mem_map.mpr ⟨txKey tx, ?_, ?_⟩
      · exact (mem_tokenKeys _ _).mpr ⟨tx, List.mem_filter.mpr
          ⟨htxs, by simpa using hpos⟩, rfl⟩
      · simpa [txKey] using of_decide_eq_true hchain
    have hnil : (txs.filter (fun tx => tx.chainId = c)).filter
        (fun x => x.valueFormatted ≠ 0) = [] := by
      rw [List.filter_eq_nil_iff]
      intro tx htx
      simp [hall0 tx htx]
    rw [hinv, hnil]
    exact hf
  have hperm : (ChainId.all.filter (fun c => c ∈ (tokenKeys (txs.filter
      (fun t => t.valueFormatted > 0))).map Prod.fst)).Perm
      ((tokenKeys (txs.filter (fun t => t.valueFormatted > 0))).map Prod.fst) := by
    have h1 : (ChainId.all.filter (fun c => c ∈ (tokenKeys (txs.filter
        (fun t => t.valueFormatted > 0))).map Prod.fst)).Nodup :=
      List.Nodup.filter _ (by decide)
    refine (List.perm_ext_iff_of_nodup h1 hCs_nodup).mpr (fun c => ?_)
    simp only [List.mem_filter, decide_eq_true_eq]
    exact ⟨fun h => h.2, fun h => ⟨mem_ChainId_all c, h⟩⟩
  calc (ChainId.all.map (fun c => f (taxReplay (sortByTs Transaction.timestamp
        (txs.filter (fun tx => tx.chainId = c)))))).sum
      = ((ChainId.all.filter (fun c => c ∈ (tokenKeys (txs.filter
          (fun t => t.valueFormatted > 0))).map Prod.fst)).map
            (fun c => f (taxReplay (sortByTs Transaction.timestamp
              (txs.filter (fun tx => tx.chainId = c)))))).sum :=
        sum_filter_of_vanish _ _ _ (fun c hc hnc => hvanish c hc (by simpa using hnc))
    _ = (((tokenKeys (txs.filter (fun t => t.valueFormatted > 0))).map Prod.fst).map
          (fun c => f (taxReplay (sortByTs Transaction.timestamp
            (txs.filter (fun tx => tx.chainId = c)))))).sum :=
        (hperm.map _).sum_eq
    _ = ((tokenKeys (txs.filter (fun t => t.valueFormatted > 0))).map (fun k =>
          f (taxReplay (sortByTs Transaction.timestamp
            (txs.filter (fun tx => tx.chainId = k.1)))))).sum := by
        rw [List.map_map]
        rfl
    _ = ((tokenKeys (txs.filter (fun t => t.valueFormatted > 0))).map (fun k =>
          f (taxReplay (sortByTs Transaction.timestamp
            ((txs.filter (fun t => t.valueFormatted > 0)).filter
              (fun tx => txKey tx = k)))))).sum :=
        (congrArg List.sum (List.map_congr_left (fun k hk => (hgroups k hk).symm))).symm.symm

/-- C3, counterexample: With two distinct tokens on one chain —
token `a` received (1 unit, price 0, t = 0) and token `b` sent (1 unit,
price 5, t = 1), both on Ethereum — the handler's per-chain pass runs one
shared lot queue for the whole chain, matches token `b`'s disposal
against token `a`'s lot and books a 5-unit short-term gain, while the
global classifier (one queue per token key) books 0. -/
theorem byChain_sum_ne_global :
    (ChainId.all.map (fun c => (byChainGains
        [⟨"h1", .ethereum, 1, ⟨"a", .ethereum⟩, 0, .receive, some 0⟩,
         ⟨"h2", .ethereum, 1, ⟨"b", .ethereum⟩, 1, .send, some 5⟩] c).shortTermGains)).sum ≠
      (calculateTaxLots
        ([⟨"h1", .ethereum, 1, ⟨"a", .ethereum⟩, 0, .receive, some 0⟩,
          ⟨"h2", .ethereum, 1, ⟨"b", .ethereum⟩, 1, .send, some 5⟩].filter
            (fun t => t.valueFormatted > 0)) 0).shortTermGains := by
  have hded : ([(ChainId.ethereum, "a"), (ChainId.ethereum, "b")] :
      List (ChainId × String)).dedup =
      [(ChainId.ethereum, "a"), (ChainId.ethereum, "b")] := by decide
  norm_num [ChainId.all, byChainGains, chainTaxStep, chainDispose, calculateTaxLots,
    tokenKeys, txKey, taxReplay, taxStep, disposeTax, sortByTs, insertByTs,
    hded, ONE_YEAR, lotsAmount, lotsCost]

/-- C3, amended: The handler's per-chain tax pass uses one shared lot
queue per chain (it does not group by token within a chain), so its chain
sums can diverge from the global classifier when a chain hosts several
tokens.  When every chain's events share a single token address (and
amounts are non-negative), each chain queue coincides with that token
key's queue and the per-chain sums of `shortTermGains`, `longTermGains`
and `totalCapitalGains` equal the global classifier's values on the
zero-filtered input the handler feeds it. -/
theorem byChain_totals_eq_global (txs : List Transaction) (cT : ℚ)
    (hnn : ∀ tx ∈ txs, 0 ≤ tx.valueFormatted)
    (hone : ∀ t1 ∈ txs, ∀ t2 ∈ txs, t1.chainId = t2.chainId →
      t1.token.address = t2.token.address) :
    (ChainId.all.map (fun c => (byChainGains txs c).shortTermGains)).sum =
        (calculateTaxLots (txs.filter (fun t => t.valueFormatted > 0))
          cT).shortTermGains ∧
      (ChainId.all.map (fun c => (byChainGains txs c).longTermGains)).sum =
        (calculateTaxLots (txs.filter (fun t => t.valueFormatted > 0))
          cT).longTermGains ∧
      (ChainId.all.map (fun c => (byChainGains txs c).totalCapitalGains)).sum =
        (calculateTaxLots (txs.filter (fun t => t.valueFormatted > 0))
          cT).totalCapitalGains := by
  have hst := byChain_sum_generic txs hnn hone TaxState.st rfl (fun l => by
    have h := taxReplay_filter_nz (sortByTs Transaction.timestamp l)
    rw [← sortByTs_filter] at h
    exact h.1)
  have hlt := byChain_sum_generic txs hnn hone TaxState.lt rfl (fun l => by
    have h := taxReplay_filter_nz (sortByTs Transaction.timestamp l)
    rw [← sortByTs_filter] at h
    exact h.2)
  have p1 : (ChainId.all.map (fun c => (byChainGains txs c).shortTermGains)).sum =
      (calculateTaxLots (txs.filter (fun t => t.valueFormatted > 0))
        cT).shortTermGains := by
    rw [List.map_congr_left (fun c _ => by
      rw [byChainGains_eq_taxReplay] :
        ∀ c ∈ ChainId.all, (byChainGains txs c).shortTermGains =
          (taxReplay (sortByTs Transaction.timestamp
            (txs.filter (fun tx => tx.chainId = c)))).st)]
    rw [hst]
    simp only [calculateTaxLots, List.map_map]
    rfl
  have p2 : (ChainId.all.map (fun c => (byChainGains txs c).longTermGains)).sum =
      (calculateTaxLots (txs.filter (fun t => t.valueFormatted > 0))
        cT).longTermGains := by
    rw [List.map_congr_left (fun c _ => by
      rw [byChainGains_eq_taxReplay] :
        ∀ c ∈ ChainId.all, (byChainGains txs c).longTermGains =
          (taxReplay (sortByTs Transaction.timestamp
            (txs.filter (fun tx => tx.chainId = c)))).lt)]
    rw [hlt]
    simp only [calculateTaxLots, List.map_map]
    rfl
  refine ⟨p1, p2, ?_⟩
  rw [List.map_congr_left (fun c _ => by
    rw [byChainGains_eq_taxReplay] :
      ∀ c ∈ ChainId.all, (byChainGains txs c).totalCapitalGains =
        (taxReplay (sortByTs Transaction.timestamp
          (txs.filter (fun tx => tx.chainId = c)))).st +
        (taxReplay (sortByTs Transaction.timestamp
          (txs.filter (fun tx => tx.chainId = c)))).lt)]
  rw [sum_map_add ChainId.all
    (fun c => (taxReplay (sortByTs Transaction.timestamp
      (txs.filter (fun tx => tx.chainId = c)))).st)
    (fun c => (taxReplay (sortByTs Transaction.timestamp
      (txs.filter (fun tx => tx.chainId = c)))).lt)]
  rw [hst, hlt]
  simp only [calculateTaxLots, List.map_map]
  rfl

/-- C3, witness: The amended aggregation identity instantiated on a
single-token Ethereum history. -/
theorem byChain_totals_eq_global_witness :
    (ChainId.all.map (fun c => (byChainGains
        [⟨"h1", .ethereum, 10, ⟨"a", .ethereum⟩, 0, .receive, some 1⟩,
         ⟨"h2", .ethereum, 15, ⟨"a", .ethereum⟩, 2, .send, some 3⟩] c).shortTermGains)).sum =
        (calculateTaxLots
          ([⟨"h1", .ethereum, 10, ⟨"a", .ethereum⟩, 0, .receive, some 1⟩,
            ⟨"h2", .ethereum, 15, ⟨"a", .ethereum⟩, 2, .send, some 3⟩].filter
              (fun t => t.valueFormatted > 0)) 7).shortTermGains ∧
      (ChainId.all.map (fun c => (byChainGains
        [⟨"h1", .ethereum, 10, ⟨"a", .ethereum⟩, 0, .receive, some 1⟩,
         ⟨"h2", .ethereum, 15, ⟨"a", .ethereum⟩, 2, .send, some 3⟩] c).longTermGains)).sum =
        (calculateTaxLots
          ([⟨"h1", .ethereum, 10, ⟨"a", .ethereum⟩, 0, .receive, some 1⟩,
            ⟨"h2", .ethereum, 15, ⟨"a", .ethereum⟩, 2, .send, some 3⟩].filter
              (fun t => t.valueFormatted > 0)) 7).longTermGains ∧
      (ChainId.all.map (fun c => (byChainGains
        [⟨"h1", .ethereum, 10, ⟨"a", .ethereum⟩, 0, .receive, some 1⟩,
         ⟨"h2", .ethereum, 15, ⟨"a", .ethereum⟩, 2, .send, some 3⟩] c).totalCapitalGains)).sum =
        (calculateTaxLots
          ([⟨"h1", .ethereum, 10, ⟨"a", .ethereum⟩, 0, .receive, some 1⟩,
            ⟨"h2", .ethereum, 15, ⟨"a", .ethereum⟩, 2, .send, some 3⟩].filter
              (fun t => t.valueFormatted > 0)) 7).totalCapitalGains := by
  apply byChain_totals_eq_global
  · intro tx htx
    rcases List.mem_cons.mp htx with h | h
    · rw [h]; norm_num
    · rw [List.mem_singleton.mp h]; norm_num
  · intro t1 h1 t2 h2 _
    rcases List.mem_cons.mp h1 with e1 | e1 <;>
      rcases List.mem_cons.mp h2 with e2 | e2 <;>
        first
          | (rw [e1, e2])
          | (rw [e1, List.mem_singleton.mp e2])
          | (rw [List.mem_singleton.mp e1, e2])
          | (rw [List.mem_singleton.mp e1, List.mem_singleton.mp e2])

end DeFolio
